import Mathlib

/-!
Verification of the SBOM supplier enrichment tool
(`tools/enrich_suppliers.py`).

The tool walks a CycloneDX SBOM JSON document, and for every component
mapping that has no `supplier` field it derives a supplier record from the
component's package URL: PyPI components are looked up (with an in-memory
cache) against the registry, npm/maven components get fixed placeholder
records, everything else gets nothing.

The embedding below models JSON values as an inductive tree, Python
truthiness and `dict.get` explicitly, the registry transport as an oracle
`String → FetchResult`, and Python exceptions (attribute/type errors on
malformed documents) as `Except Unit`.
-/

/-- JSON values, as produced by `json.load`.  Objects keep insertion order,
matching Python dicts; numbers are modelled as integers (no claim involves
numeric arithmetic). -/
inductive Json where
  | null
  | bool (b : Bool)
  | num (n : Int)
  | str (s : String)
  | arr (elems : List Json)
  | obj (fields : List (String × Json))

/-- The `isinstance(x, dict)` test, returning the fields on success. -/
def Json.asObj : Json → Option (List (String × Json))
  | .obj fs => some fs
  | _ => none

/-- The `isinstance(x, list)` test, returning the elements on success. -/
def Json.asArr : Json → Option (List Json)
  | .arr xs => some xs
  | _ => none

/-- Python truthiness (`if x:`) for JSON values. -/
def Json.isTruthy : Json → Bool
  | .null => false
  | .bool b => b
  | .num n => !(n == 0)
  | .str s => !s.toList.isEmpty
  | .arr xs => !xs.isEmpty
  | .obj fs => !fs.isEmpty

/-- `k in d` for a Python dict. -/
def hasKey (fs : List (String × Json)) (k : String) : Bool :=
  fs.any (fun kv => kv.1 == k)

/-- Python dict assignment `d[k] = v`: replace the value in place when the
key is present, append otherwise. -/
def setKey (fs : List (String × Json)) (k : String) (v : Json) : List (String × Json) :=
  match fs with
  | [] => [(k, v)]
  | (k2, v2) :: rest => if k2 == k then (k, v) :: rest else (k2, v2) :: setKey rest k v

/-- `s == ""` test used for Python string truthiness. -/
def strIsEmpty (s : String) : Bool := s.toList.isEmpty

/-- Python `a or b` on two strings: first truthy (non-empty) wins. -/
def pyOrStr (a b : String) : String := if strIsEmpty a then b else a

/-- Characters removed by Python `str.strip()` (ASCII whitespace). -/
def isPyWs (c : Char) : Bool :=
  c == ' ' || c == '\t' || c == '\n' || c == '\r' || c == '\x0b' || c == '\x0c'

/-- Python `str.strip()` on a character list. -/
def pyStripL (cs : List Char) : List Char :=
  ((cs.dropWhile isPyWs).reverse.dropWhile isPyWs).reverse

/-- Python `str.strip()`. -/
def pyStrip (s : String) : String := String.mk (pyStripL s.toList)

/-- Python `s.startswith(pre)`. -/
def startsWithStr (s pre : String) : Bool := pre.toList.isPrefixOf s.toList

/-- ASCII lowercasing, as Python `str.lower()` behaves on the ASCII keys
compared against the lowercase literals in the source. -/
def lowerStr (s : String) : String := String.mk (s.toList.map Char.toLower)

/-- Python `c in s` for a single character. -/
def strContainsChar (s : String) (c : Char) : Bool := s.toList.contains c

/-- Python substring test `needle in hay` for strings. -/
def containsSubstr (needle : List Char) : List Char → Bool
  | [] => needle.isEmpty
  | c :: rest => needle.isPrefixOf (c :: rest) || containsSubstr needle rest

/-- The character class of the safe-name pattern `[A-Za-z0-9._-]`. -/
def safeChar (c : Char) : Bool :=
  c.isAlphanum || c == '.' || c == '_' || c == '-'

/-- The source's sanitation check `re.match(r"^[A-Za-z0-9._-]+$", name)`.
Python's `$` also matches just before a single trailing newline, so a name
consisting of safe characters followed by one final `\n` passes. -/
def safeMatch (name : String) : Bool :=
  let cs := name.toList
  let core := if cs.getLast? == some '\n' then cs.dropLast else cs
  !core.isEmpty && core.all safeChar

/-- One pass of `re.sub(r"[<>=!].*", "", name)`.  The flag records whether
the scanner is inside a match: `.*` (without DOTALL) consumes to the end of
the current line, the newline itself survives. -/
def stripVS : Bool → List Char → List Char
  | _, [] => []
  | true, c :: rest =>
      if c == '\n' then c :: stripVS false rest else stripVS true rest
  | false, c :: rest =>
      if c == '<' || c == '>' || c == '=' || c == '!' then stripVS true rest
      else c :: stripVS false rest

/-- `re.sub(r"[<>=!].*", "", name).strip()` from `_derive_supplier_from_purl`. -/
def codeNormalize (s : String) : String := pyStrip (String.mk (stripVS false s.toList))

/-- `(info.get(k) or "").strip()`: absent keys and falsy values give `""`;
calling `.strip()` on a truthy non-string raises (modelled as `.error`). -/
def pyGetStrip (info : Json) (k : String) : Except Unit String :=
  match info with
  | .obj fs =>
    match fs.lookup k with
    | none => .ok ""
    | some v =>
      if v.isTruthy then
        match v with
        | .str s => .ok (pyStrip s)
        | _ => .error ()
      else .ok ""
  | _ => .error ()

/-- `meta.get("info", {}) if isinstance(meta, dict) else {}`. -/
def infoOf (meta : Json) : Json :=
  match meta with
  | .obj fs =>
    match fs.lookup "info" with
    | some v => v
    | none => .obj []
  | _ => .obj []

/-- `info.get("project_urls") or {}` followed by the `isinstance(..., dict)`
guard: yields the key/value pairs iterated by the URL scan. -/
def projectUrlsOf (info : Json) : Except Unit (List (String × Json)) :=
  match info with
  | .obj fs =>
    match fs.lookup "project_urls" with
    | none => .ok []
    | some v =>
      if v.isTruthy then
        match v with
        | .obj pfs => .ok pfs
        | _ => .ok []
      else .ok []
  | _ => .error ()

/-- The project-URL scan of `_extract_pypi_supplier`: append each string
value that starts with `http`, is not already collected, and whose
lowercased key is `homepage`, `repository` or `source`. -/
def collectUrls (start : List String) (pfs : List (String × Json)) : List String :=
  pfs.foldl
    (fun acc kv =>
      match kv.2 with
      | .str u =>
        if startsWithStr u "http" && !(acc.contains u) &&
            (lowerStr kv.1 == "homepage" || lowerStr kv.1 == "repository" ||
              lowerStr kv.1 == "source") then
          acc ++ [u]
        else acc
      | _ => acc)
    start

/-- Assembly of the supplier dict in `_extract_pypi_supplier` from the
chosen name, chosen email, homepage and project-URL pairs; returns `none`
for the final `supplier or None`. -/
def buildSupplier (name email homepage : String) (pfs : List (String × Json)) : Option Json :=
  let base : List (String × Json) :=
    if !strIsEmpty name then
      ("name", Json.str name) ::
        (if !strIsEmpty email && strContainsChar email '@' then
          [("contact", Json.arr [Json.obj [("name", Json.str name), ("email", Json.str email)]])]
        else [])
    else []
  let urls := collectUrls (if startsWithStr homepage "http" then [homepage] else []) pfs
  let fields := base ++ (if !urls.isEmpty then [("url", Json.arr ((urls.take 3).map Json.str))] else [])
  if fields.isEmpty then none else some (Json.obj fields)

/-- `_extract_pypi_supplier(meta)`. -/
def extract_pypi_supplier (meta : Json) : Except Unit (Option Json) :=
  if !(infoOf meta).isTruthy then .ok none
  else
    match pyGetStrip (infoOf meta) "maintainer" with
    | .error e => .error e
    | .ok mnt =>
      match pyGetStrip (infoOf meta) "maintainer_email" with
      | .error e => .error e
      | .ok me =>
        match pyGetStrip (infoOf meta) "author" with
        | .error e => .error e
        | .ok au =>
          match pyGetStrip (infoOf meta) "author_email" with
          | .error e => .error e
          | .ok ae =>
            match pyGetStrip (infoOf meta) "home_page" with
            | .error e => .error e
            | .ok hp =>
              match projectUrlsOf (infoOf meta) with
              | .error e => .error e
              | .ok pfs => .ok (buildSupplier (pyOrStr mnt au) (pyOrStr me ae) hp pfs)

/-- Outcome of one HTTP fetch of the registry endpoint, abstracting the
transport: a 200 response with a parseable JSON body, a non-200 status, a
transport failure (`HTTPError`/`URLError`), or an unparseable body
(`json.JSONDecodeError`). -/
inductive FetchResult where
  | success (doc : Json)
  | badStatus
  | netError
  | badBody

/-- The registry's behaviour for each package name. -/
def RegOracle := String → FetchResult

/-- The `PyPIClient` instance state: the in-memory cache `self._cache`,
mapping a name to metadata or to the absent marker `None`. -/
structure ClientState where
  cache : List (String × Option Json)

/-- Result of a `get_package` call: returned value, client state after the
call, and whether a network request (with its courtesy delay) was issued. -/
structure GetResult where
  value : Option Json
  state : ClientState
  requested : Bool

/-- `PyPIClient.get_package(name)`. -/
def get_package (oracle : RegOracle) (st : ClientState) (name : String) : GetResult :=
  match st.cache.lookup name with
  | some v => ⟨v, st, false⟩
  | none =>
    if safeMatch name then
      match oracle name with
      | .success d => ⟨some d, ⟨st.cache ++ [(name, some d)]⟩, true⟩
      | _ => ⟨none, ⟨st.cache ++ [(name, none)]⟩, true⟩
    else ⟨none, ⟨st.cache ++ [(name, none)]⟩, false⟩

/-- `re.sub(r"[<>=!].*", "", name).strip()`; `re.sub` raises a `TypeError`
on a non-string argument. -/
def normalizeName : Json → Except Unit String
  | .str s => .ok (codeNormalize s)
  | _ => .error ()

/-- Python `needle in hay` for an arbitrary JSON value `hay`: substring
test on strings, element equality on arrays, key membership on objects,
`TypeError` otherwise. -/
def pyInStr (needle : String) (hay : Json) : Except Unit Bool :=
  match hay with
  | .str s => .ok (containsSubstr needle.toList s.toList)
  | .arr xs => .ok (xs.any (fun x => match x with | .str s => s == needle | _ => false))
  | .obj fs => .ok (fs.any (fun kv => kv.1 == needle))
  | _ => .error ()

/-- The static npm placeholder record. -/
def npmPlaceholder : Json :=
  .obj [("name", .str "npm Registry"), ("url", .arr [.str "https://www.npmjs.com/"])]

/-- The static Maven placeholder record. -/
def mavenPlaceholder : Json :=
  .obj [("name", .str "Maven Central"), ("url", .arr [.str "https://search.maven.org/"])]

/-- `_derive_supplier_from_purl(purl, name, pypi_client)`. -/
def derive_supplier_from_purl (oracle : RegOracle) (purl name : Json) (st : ClientState) :
    Except Unit (Option Json × ClientState) :=
  if !purl.isTruthy then .ok (none, st)
  else
    match pyInStr "pkg:pypi/" purl with
    | .error e => .error e
    | .ok true =>
      match normalizeName name with
      | .error e => .error e
      | .ok nn =>
        let r := get_package oracle st nn
        match r.value with
        | some m =>
          if m.isTruthy then
            match extract_pypi_supplier m with
            | .ok s => .ok (s, r.state)
            | .error e => .error e
          else .ok (none, r.state)
        | none => .ok (none, r.state)
    | .ok false =>
      match pyInStr "pkg:npm/" purl with
      | .error e => .error e
      | .ok true => .ok (some npmPlaceholder, st)
      | .ok false =>
        match pyInStr "pkg:maven/" purl with
        | .error e => .error e
        | .ok true => .ok (some mavenPlaceholder, st)
        | .ok false => .ok (none, st)

/-- `_enrich_component(component, pypi_client)`: returns the (possibly
mutated) component, the returned flag, and the client state. -/
def enrich_component (oracle : RegOracle) (comp : List (String × Json)) (st : ClientState) :
    Except Unit (List (String × Json) × Bool × ClientState) :=
  if hasKey comp "supplier" then .ok (comp, false, st)
  else
    match derive_supplier_from_purl oracle ((comp.lookup "purl").getD (.str ""))
        ((comp.lookup "name").getD (.str "")) st with
    | .error e => .error e
    | .ok (s, st2) =>
      match s with
      | some j =>
        if j.isTruthy then .ok (comp ++ [("supplier", j)], true, st2)
        else .ok (comp, false, st2)
      | none => .ok (comp, false, st2)

/-- The loop over the top-level `components` list in `enrich_sbom`: entries
that are mappings are enriched (threading the shared client), other entries
pass through untouched. -/
def enrich_components (oracle : RegOracle) :
    List Json → ClientState → Except Unit (List Json × Nat × ClientState)
  | [], st => .ok ([], 0, st)
  | c :: rest, st =>
    match c.asObj with
    | some cf =>
      match enrich_component oracle cf st with
      | .error e => .error e
      | .ok (cf2, added, st2) =>
        match enrich_components oracle rest st2 with
        | .error e => .error e
        | .ok (rest2, n, st3) => .ok (.obj cf2 :: rest2, (if added then 1 else 0) + n, st3)
    | none =>
      match enrich_components oracle rest st with
      | .error e => .error e
      | .ok (rest2, n, st3) => .ok (c :: rest2, n, st3)

/-- The `metadata.component` step of `enrich_sbom`, applied to the document
fields after the components loop: enrich `metadata.component` when both
`metadata` and `component` are mappings. -/
def enrich_metadata (oracle : RegOracle) (fs1 : List (String × Json)) (st : ClientState)
    (n1 : Nat) : Except Unit (Json × Nat) :=
  match (fs1.lookup "metadata").bind Json.asObj with
  | some mfs =>
    match (mfs.lookup "component").bind Json.asObj with
    | some cf =>
      match enrich_component oracle cf st with
      | .error e => .error e
      | .ok (cf2, added, _) =>
        .ok (.obj (setKey fs1 "metadata" (.obj (setKey mfs "component" (.obj cf2)))),
          n1 + (if added then 1 else 0))
    | none => .ok (.obj fs1, n1)
  | none => .ok (.obj fs1, n1)

/-- `enrich_sbom` on an already-loaded document: a fresh client per run,
the components loop, then the metadata component; returns the mutated
document and the updated-count.  `sbom.get` on a non-mapping document
raises (`AttributeError`), modelled as `.error`. -/
def enrich_sbom (oracle : RegOracle) (sbom : Json) : Except Unit (Json × Nat) :=
  match sbom.asObj with
  | some fs =>
    match (fs.lookup "components").bind Json.asArr with
    | some xs =>
      match enrich_components oracle xs ⟨[]⟩ with
      | .error e => .error e
      | .ok (ys, n, st) => enrich_metadata oracle (setKey fs "components" (.arr ys)) st n
    | none => enrich_metadata oracle fs ⟨[]⟩ 0
  | none => .error ()

/-- How loading the input file went: missing file (`is_file` fails or
`FileNotFoundError`), invalid JSON (`json.JSONDecodeError`), or a parsed
document. -/
inductive LoadResult where
  | missingFile
  | invalidJson
  | ok (doc : Json)

/-- Observable outcome of `main`: the process exit code, and whether the
output file was written. -/
structure RunResult where
  exitCode : Nat
  wroteOutput : Bool

/-- The control flow of `main`: exit 2 on a missing input file or invalid
JSON (before any write), exit 3 on any other error raised while enriching
(also before the write), exit 0 with the output written on success. -/
def main_run (oracle : RegOracle) (load : LoadResult) : RunResult :=
  match load with
  | .missingFile => ⟨2, false⟩
  | .invalidJson => ⟨2, false⟩
  | .ok doc =>
    match enrich_sbom oracle doc with
    | .ok _ => ⟨0, true⟩
    | .error _ => ⟨3, false⟩

/-- A registry whose every lookup succeeds with a maintainer-only document. -/
def oracleM : RegOracle := fun _ => .success (.obj [("info", .obj [("maintainer", .str "M")])])

/-- The value a fresh (cacheless) `get_package` call for `name` would
return: metadata on a safe name whose fetch succeeds, absent otherwise. -/
def fetch_value (oracle : RegOracle) (name : String) : Option Json :=
  if safeMatch name then
    match oracle name with
    | .success d => some d
    | _ => none
  else none

/-- Cache consistency: every cached entry is the value a fresh lookup of
that name against the registry would produce. -/
def CacheOK (oracle : RegOracle) (st : ClientState) : Prop :=
  ∀ k v, st.cache.lookup k = some v → v = fetch_value oracle k

/-- Modelled from the claim (C4): the spec's description of the name
normalization, deleting the first occurrence of any of the characters
`<`, `>`, `=`, `!` and everything after it, then trimming whitespace. -/
def specNormalize (s : String) : String :=
  pyStrip (String.mk (s.toList.takeWhile
    (fun c => !(c == '<' || c == '>' || c == '=' || c == '!'))))

/-- Modelled from the claim (C4): the resolver dispatch the spec describes,
parameterized by the name-normalization function it says is applied before
the registry lookup. -/
def specResolveClaim (normalize : String → String) (oracle : RegOracle)
    (purl name : String) (st : ClientState) : Except Unit (Option Json × ClientState) :=
  if strIsEmpty purl then .ok (none, st)
  else if containsSubstr "pkg:pypi/".toList purl.toList then
    let r := get_package oracle st (normalize name)
    match r.value with
    | some m =>
      if m.isTruthy then
        match extract_pypi_supplier m with
        | .ok s => .ok (s, r.state)
        | .error e => .error e
      else .ok (none, r.state)
    | none => .ok (none, r.state)
  else if containsSubstr "pkg:npm/".toList purl.toList then .ok (some npmPlaceholder, st)
  else if containsSubstr "pkg:maven/".toList purl.toList then .ok (some mavenPlaceholder, st)
  else .ok (none, st)

/-- Registry metadata used by the C4 counterexample. -/
def cexMeta : Json := .obj [("info", .obj [("maintainer", .str "M")])]

/-- Registry behaviour for the C4 counterexample: package `a` exists. -/
def cexOracle : RegOracle := fun nm => if nm == "a" then .success cexMeta else .netError

/-- Modelled from the claim (C6): the project-URL scan as the spec words
it, recursing over the mapping in iteration order and appending each
qualifying string value. -/
def specUrlScan (acc : List String) : List (String × Json) → List String
  | [] => acc
  | (k, v) :: rest =>
    match v with
    | .str u =>
      if startsWithStr u "http" && !(acc.contains u) &&
          (lowerStr k == "homepage" || lowerStr k == "repository" || lowerStr k == "source") then
        specUrlScan (acc ++ [u]) rest
      else specUrlScan acc rest
    | _ => specUrlScan acc rest

/-- Field access on a JSON object value. -/
def objField : Json → String → Option Json
  | .obj fs, k => fs.lookup k
  | _, _ => none

/-- Field access on an optional supplier record. -/
def suppField : Option Json → String → Option Json
  | some j, k => objField j k
  | none, _ => none

/-- Whether a JSON value is a mapping carrying a `supplier` field. -/
def objHasSupplier : Json → Bool
  | .obj fs => hasKey fs "supplier"
  | _ => false

/-- Whether a component gained a `supplier` field between two snapshots. -/
def gained : Json → Json → Bool
  | .obj af, .obj bf => !hasKey af "supplier" && hasKey bf "supplier"
  | _, _ => false

/-- The entries of the top-level `components` list the run iterates. -/
def componentsOf (j : Json) : List Json :=
  match j.asObj with
  | some fs =>
    match (fs.lookup "components").bind Json.asArr with
    | some xs => xs
    | none => []
  | none => []

/-- The `metadata.component` mapping the run enriches, when present. -/
def metaCompOf (j : Json) : Option Json :=
  match j.asObj with
  | some fs =>
    match (fs.lookup "metadata").bind Json.asObj with
    | some mfs =>
      match (mfs.lookup "component").bind Json.asObj with
      | some cf => some (.obj cf)
      | none => none
    | none => none
  | none => none

/-- Number of entries (components list, plus `metadata.component`) that
gained a `supplier` field between an input document and an output
document. -/
def gainedCount (inp out : Json) : Nat :=
  ((componentsOf inp).zip (componentsOf out)).countP (fun p => gained p.1 p.2) +
  (match metaCompOf inp, metaCompOf out with
   | some a, some b => if gained a b then 1 else 0
   | _, _ => 0)

/-- The `metadata`/`component` field pair the metadata step acts on. -/
def metaCompFields (fs : List (String × Json)) :
    Option (List (String × Json) × List (String × Json)) :=
  match (fs.lookup "metadata").bind Json.asObj with
  | some mfs =>
    match (mfs.lookup "component").bind Json.asObj with
    | some cf => some (mfs, cf)
    | none => none
  | none => none

/-- The resolver's value as a pure function of the registry behaviour,
ignoring the cache: what `_derive_supplier_from_purl` returns whenever the
client cache is consistent with the registry. -/
def pure_derive (oracle : RegOracle) (purl name : Json) : Except Unit (Option Json) :=
  if !purl.isTruthy then .ok none
  else
    match pyInStr "pkg:pypi/" purl with
    | .error e => .error e
    | .ok true =>
      match normalizeName name with
      | .error e => .error e
      | .ok nn =>
        match fetch_value oracle nn with
        | some m =>
          if m.isTruthy then extract_pypi_supplier m
          else .ok none
        | none => .ok none
    | .ok false =>
      match pyInStr "pkg:npm/" purl with
      | .error e => .error e
      | .ok true => .ok (some npmPlaceholder)
      | .ok false =>
        match pyInStr "pkg:maven/" purl with
        | .error e => .error e
        | .ok true => .ok (some mavenPlaceholder)
        | .ok false => .ok none

/-- `_enrich_component` as a pure function of the registry behaviour. -/
def pure_enrich_component (oracle : RegOracle) (comp : List (String × Json)) :
    Except Unit (List (String × Json) × Bool) :=
  if hasKey comp "supplier" then .ok (comp, false)
  else
    match pure_derive oracle ((comp.lookup "purl").getD (.str ""))
        ((comp.lookup "name").getD (.str "")) with
    | .error e => .error e
    | .ok (some j) =>
      if j.isTruthy then .ok (comp ++ [("supplier", j)], true)
      else .ok (comp, false)
    | .ok none => .ok (comp, false)

/-- Registry metadata document exercising the cross name/email choice:
maintainer name, author email. -/
def metaW : Json := .obj [("info", .obj [("maintainer", .str " Alice "),
  ("author", .str "Bob"), ("author_email", .str "bob@x"),
  ("home_page", .str "http://h"),
  ("project_urls", .obj [("Source", .str "http://s")])])]

/-- Registry metadata with a valid email but no usable name and no URLs. -/
def metaN : Json := .obj [("info", .obj [("maintainer_email", .str "a@b")])]

/-- The supplier record extracted from `metaW`. -/
def suppW : Json := .obj [("name", .str "Alice"),
  ("contact", .arr [.obj [("name", .str "Alice"), ("email", .str "bob@x")]]),
  ("url", .arr [.str "http://h", .str "http://s"])]

/-- A one-PyPI-component SBOM used by witnesses. -/
def sbomOneComp : Json :=
  .obj [("components", .arr [.obj [("name", .str "req"), ("purl", .str "pkg:pypi/req")]])]

/-- The enrichment output for `sbomOneComp` under `oracleM`. -/
def sbomOneCompOut : Json :=
  .obj [("components", .arr [.obj [("name", .str "req"), ("purl", .str "pkg:pypi/req"),
    ("supplier", .obj [("name", .str "M")])]])]

/-- An SBOM whose only component already has a supplier. -/
def sbomSupplied : Json :=
  .obj [("components", .arr [.obj [("supplier", .str "x")]]),
    ("metadata", .obj [("component", .obj [("supplier", .str "y")])])]

/- ------------------------------------------------------------------ -/
/- Theorems                                                          -/
/- ------------------------------------------------------------------ -/

example : extract_pypi_supplier (.obj [("info", .obj [("maintainer", .str " Alice "),
    ("author", .str "Bob"), ("author_email", .str "bob@x"),
    ("home_page", .str "http://h"),
    ("project_urls", .obj [("Source", .str "http://s")])])]) =
    .ok (some (.obj [("name", .str "Alice"),
      ("contact", .arr [.obj [("name", .str "Alice"), ("email", .str "bob@x")]]),
      ("url", .arr [.str "http://h", .str "http://s"])])) := rfl

example : extract_pypi_supplier (.obj [("info", .obj [("maintainer_email", .str "a@b")])]) =
    .ok none := rfl

example : codeNormalize "a<b\nx" = "a\nx" := rfl
example : safeMatch "abc\n" = true := rfl
example : safeMatch "a\nx" = false := rfl
example : lowerStr "HomePage" = "homepage" := rfl

example :
    enrich_sbom oracleM
      (.obj [("components", .arr [.obj [("name", .str "req"), ("purl", .str "pkg:pypi/req")]])]) =
    .ok (.obj [("components", .arr [.obj [("name", .str "req"), ("purl", .str "pkg:pypi/req"),
      ("supplier", .obj [("name", .str "M")])]])], 1) := rfl

example :
    enrich_sbom oracleM (.obj [("components", .arr [.obj [("supplier", .str "x")]])]) =
    .ok (.obj [("components", .arr [.obj [("supplier", .str "x")]])], 0) := rfl

example : enrich_sbom oracleM (.arr []) = .error () := rfl

example :
    enrich_sbom (fun _ => .netError)
      (.obj [("metadata", .obj [("component", .obj [("name", .str "p"),
        ("purl", .str "pkg:npm/p")])])]) =
    .ok (.obj [("metadata", .obj [("component", .obj [("name", .str "p"),
      ("purl", .str "pkg:npm/p"), ("supplier", npmPlaceholder)])])], 1) := rfl

theorem lookup_append_some {α : Type} {l1 : List (String × α)} {k : String} {v : α}
    (l2 : List (String × α)) (h : l1.lookup k = some v) : (l1 ++ l2).lookup k = some v := by
  rw [List.lookup_append, h]
  rfl

theorem lookup_append_none {α : Type} {l1 : List (String × α)} {k : String}
    (l2 : List (String × α)) (h : l1.lookup k = none) : (l1 ++ l2).lookup k = l2.lookup k := by
  rw [List.lookup_append, h]
  rfl

theorem lookup_setKey_self {k : String} {v : Json} (fs : List (String × Json)) :
    (setKey fs k v).lookup k = some v := by
  induction fs with
  | nil => simp [setKey]
  | cons p rest ih =>
    obtain ⟨k2, v2⟩ := p
    simp only [setKey]
    by_cases hk : k2 = k
    · subst hk
      simp [List.lookup_cons]
    · have hb : (k2 == k) = false := beq_eq_false_iff_ne.mpr hk
      have hb2 : (k == k2) = false := beq_eq_false_iff_ne.mpr (Ne.symm hk)
      simp only [hb, Bool.false_eq_true, if_false, List.lookup_cons, hb2, ih]

theorem lookup_setKey_other {k k2 : String} {v : Json} (fs : List (String × Json))
    (h : k2 ≠ k) : (setKey fs k v).lookup k2 = fs.lookup k2 := by
  have hb : (k2 == k) = false := beq_eq_false_iff_ne.mpr h
  induction fs with
  | nil => simp [setKey, List.lookup_cons, hb]
  | cons p rest ih =>
    obtain ⟨k3, v3⟩ := p
    simp only [setKey]
    by_cases hk3 : k3 = k
    · subst hk3
      simp [List.lookup_cons, hb]
    · have hb3 : (k3 == k) = false := beq_eq_false_iff_ne.mpr hk3
      simp only [hb3, Bool.false_eq_true, if_false, List.lookup_cons, ih]

theorem setKey_id {k : String} {v : Json} {fs : List (String × Json)}
    (h : fs.lookup k = some v) : setKey fs k v = fs := by
  induction fs with
  | nil => simp at h
  | cons p rest ih =>
    obtain ⟨k2, v2⟩ := p
    rw [List.lookup_cons] at h
    simp only [setKey]
    by_cases hk : k = k2
    · subst hk
      simp only [beq_self_eq_true] at h ⊢
      simp only [if_true]
      cases h
      rfl
    · have hb : (k == k2) = false := beq_eq_false_iff_ne.mpr hk
      have hb2 : (k2 == k) = false := beq_eq_false_iff_ne.mpr (Ne.symm hk)
      simp only [hb] at h
      simp only [hb2, Bool.false_eq_true, if_false, ih h]

theorem cacheOK_empty (oracle : RegOracle) : CacheOK oracle ⟨[]⟩ := by
  intro k v h
  simp at h

theorem get_package_value (oracle : RegOracle) (st : ClientState) (name : String)
    (h : CacheOK oracle st) : (get_package oracle st name).value = fetch_value oracle name := by
  unfold get_package
  cases hc : st.cache.lookup name with
  | some v => exact h name v hc
  | none =>
    unfold fetch_value
    cases hs : safeMatch name
    · simp [hs]
    · cases ho : oracle name <;> simp [hs, ho]

theorem get_package_cacheOK (oracle : RegOracle) (st : ClientState) (name : String)
    (h : CacheOK oracle st) : CacheOK oracle (get_package oracle st name).state := by
  unfold get_package
  cases hc : st.cache.lookup name with
  | some v => exact h
  | none =>
    have happ : ∀ w, w = fetch_value oracle name →
        CacheOK oracle ⟨st.cache ++ [(name, w)]⟩ := by
      intro w hw k v hkv
      simp only at hkv
      cases hfind : st.cache.lookup k with
      | some v2 =>
        rw [lookup_append_some _ hfind] at hkv
        cases hkv
        exact h k v hfind
      | none =>
        rw [lookup_append_none _ hfind] at hkv
        rw [List.lookup_cons] at hkv
        by_cases hk : k = name
        · subst hk
          simp only [beq_self_eq_true] at hkv
          cases hkv
          exact hw
        · simp [beq_eq_false_iff_ne.mpr hk] at hkv
    cases hs : safeMatch name
    · simp only [Bool.false_eq_true, if_false]
      apply happ
      unfold fetch_value
      simp [hs]
    · simp only [if_true]
      cases ho : oracle name <;>
        · simp only []
          apply happ
          unfold fetch_value
          simp [hs, ho]

/-- C3 (code bug evaluation): the name `"abc\n"` contains a character
outside the safe pattern, yet the sanitation check accepts it — Python's
`$` matches just before a trailing newline — so `get_package` proceeds to
the network call instead of returning absent without a request. -/
theorem safe_name_check_admits_trailing_newline :
    ("abc\n".toList.all safeChar) = false ∧ safeMatch "abc\n" = true ∧
    (get_package (fun _ => FetchResult.netError) ⟨[]⟩ "abc\n").requested = true :=
  ⟨rfl, rfl, rfl⟩

/-- C3 (recoverable registry failures): a failing lookup for a safe,
uncached name — transport failure, non-success status, or unparseable
body — makes `get_package` return absent rather than raising. -/
theorem get_package_registry_failures (oracle : RegOracle) (st : ClientState) (name : String)
    (hc : st.cache.lookup name = none)
    (hf : oracle name = .badStatus ∨ oracle name = .netError ∨ oracle name = .badBody) :
    (get_package oracle st name).value = none := by
  unfold get_package
  rw [hc]
  cases hs : safeMatch name
  · simp
  · rcases hf with hf | hf | hf <;> simp [hf]

/-- C7: a missing input file or an invalid input document makes the run
exit with code 2 and write no output; a loadable document exits with 0
(success) or 3 (unexpected failure), and success writes the output. -/
theorem run_exit_codes :
    (∀ (oracle : RegOracle) (load : LoadResult),
        load = .missingFile ∨ load = .invalidJson → main_run oracle load = ⟨2, false⟩) ∧
    (∀ (oracle : RegOracle) (doc : Json),
        (main_run oracle (.ok doc)).exitCode = 0 ∨ (main_run oracle (.ok doc)).exitCode = 3) ∧
    (∀ (oracle : RegOracle) (doc : Json) (res : Json × Nat),
        enrich_sbom oracle doc = .ok res → main_run oracle (.ok doc) = ⟨0, true⟩) := by
  refine ⟨?_, ?_, ?_⟩
  · intro oracle load h
    rcases h with h | h <;> subst h <;> rfl
  · intro oracle doc
    cases h : enrich_sbom oracle doc <;> simp [main_run, h]
  · intro oracle doc res h
    simp [main_run, h]

/-- C7 witness at concrete inputs. -/
theorem run_exit_codes_witness :
    main_run oracleM .missingFile = ⟨2, false⟩ ∧
    main_run oracleM .invalidJson = ⟨2, false⟩ ∧
    main_run oracleM (.ok (.obj [])) = ⟨0, true⟩ :=
  ⟨run_exit_codes.1 oracleM .missingFile (Or.inl rfl),
   run_exit_codes.1 oracleM .invalidJson (Or.inr rfl),
   run_exit_codes.2.2 oracleM (.obj []) (.obj [], 0) rfl⟩

/-- C8: the client cache makes lookups per-name idempotent: a cached name
is answered from the cache with no request and no state change; a first
lookup stores its result (metadata or absent) under the name; no call ever
drops an existing cache entry; and after any call the name is cached. -/
theorem get_package_cache_discipline :
    (∀ (oracle : RegOracle) (st : ClientState) (name : String) (v : Option Json),
        st.cache.lookup name = some v → get_package oracle st name = ⟨v, st, false⟩) ∧
    (∀ (oracle : RegOracle) (st : ClientState) (name : String),
        st.cache.lookup name = none →
        (get_package oracle st name).state.cache.lookup name =
          some (get_package oracle st name).value) ∧
    (∀ (oracle : RegOracle) (st : ClientState) (name k : String) (v : Option Json),
        st.cache.lookup k = some v →
        (get_package oracle st name).state.cache.lookup k = some v) ∧
    (∀ (oracle : RegOracle) (st : ClientState) (name : String),
        ((get_package oracle st name).state.cache.lookup name).isSome = true) := by
  have hsingle : ∀ (w : Option Json) (name : String),
      ([(name, w)] : List (String × Option Json)).lookup name = some w := by
    intro w name
    rw [List.lookup_cons]
    simp
  have hstore : ∀ (oracle : RegOracle) (st : ClientState) (name : String),
      st.cache.lookup name = none →
      (get_package oracle st name).state.cache.lookup name =
        some (get_package oracle st name).value := by
    intro oracle st name hc
    unfold get_package
    rw [hc]
    cases hs : safeMatch name
    · simp only [Bool.false_eq_true, if_false]
      rw [lookup_append_none _ hc, hsingle]
    · simp only [if_true]
      cases ho : oracle name <;>
        · simp only []
          rw [lookup_append_none _ hc, hsingle]
  refine ⟨?_, hstore, ?_, ?_⟩
  · intro oracle st name v h
    unfold get_package
    rw [h]
  · intro oracle st name k v h
    unfold get_package
    cases hc : st.cache.lookup name with
    | some w => exact h
    | none =>
      cases hs : safeMatch name
      · simp only [Bool.false_eq_true, if_false]
        exact lookup_append_some _ h
      · simp only [if_true]
        cases ho : oracle name <;>
          · simp only []
            exact lookup_append_some _ h
  · intro oracle st name
    cases hc : st.cache.lookup name with
    | some w =>
      unfold get_package
      rw [hc]
      simp [hc]
    | none =>
      rw [hstore oracle st name hc]
      rfl

/-- C8 witness at concrete inputs: a pre-cached name is served from the
cache without a request; a fresh name gets its result cached; existing
entries survive a later call for another name. -/
theorem get_package_cache_discipline_witness :
    get_package oracleM ⟨[("cached", some (Json.obj []))]⟩ "cached" =
      ⟨some (Json.obj []), ⟨[("cached", some (Json.obj []))]⟩, false⟩ ∧
    (get_package oracleM ⟨[]⟩ "req").state.cache.lookup "req" =
      some (get_package oracleM ⟨[]⟩ "req").value ∧
    (get_package oracleM ⟨[("cached", some (Json.obj []))]⟩ "req").state.cache.lookup "cached" =
      some (some (Json.obj [])) ∧
    ((get_package oracleM ⟨[]⟩ "req").state.cache.lookup "req").isSome = true :=
  ⟨get_package_cache_discipline.1 oracleM ⟨[("cached", some (Json.obj []))]⟩ "cached"
      (some (Json.obj [])) rfl,
   get_package_cache_discipline.2.1 oracleM ⟨[]⟩ "req" rfl,
   get_package_cache_discipline.2.2.1 oracleM ⟨[("cached", some (Json.obj []))]⟩ "req" "cached"
      (some (Json.obj [])) rfl,
   get_package_cache_discipline.2.2.2 oracleM ⟨[]⟩ "req"⟩

/-- C4 counterexample: for the component name `"a<b\nx"` the claim's
normalization (delete from the first `<`/`>`/`=`/`!` to the end of the
name) would look up `"a"`, which this registry resolves to a supplier; the
code's `re.sub(r"[<>=!].*", ...)` only deletes to the end of the line, so
it looks up `"a\nx"`, which fails the safe-name check, and resolves to
absent.  The two dispatches disagree at this concrete input. -/
theorem resolve_normalization_cex :
    derive_supplier_from_purl cexOracle (.str "pkg:pypi/p") (.str "a<b\nx") ⟨[]⟩ ≠
      specResolveClaim specNormalize cexOracle "pkg:pypi/p" "a<b\nx" ⟨[]⟩ := by
  have h1 : derive_supplier_from_purl cexOracle (.str "pkg:pypi/p") (.str "a<b\nx") ⟨[]⟩ =
      .ok (none, ⟨[("a\nx", none)]⟩) := rfl
  have h2 : specResolveClaim specNormalize cexOracle "pkg:pypi/p" "a<b\nx" ⟨[]⟩ =
      .ok (some (Json.obj [("name", Json.str "M")]), ⟨[("a", some cexMeta)]⟩) := rfl
  rw [h1, h2]
  intro h
  simp at h

/-- C4 (amended): the resolver dispatch is exactly as the claim states it,
except that the name normalization deletes, within each newline-separated
line of the name, from the first occurrence of any of `<`, `>`, `=`, `!`
to the end of that line (newlines survive), before trimming whitespace:
empty package-URL is absent; a package-URL containing the PyPI marker
normalizes the name, performs the registry lookup, and delegates to the
extractor only for truthy metadata; npm and maven markers yield their
fixed placeholder records with no registry interaction; anything else is
absent. -/
theorem resolve_dispatch_amended (oracle : RegOracle) (purl name : String) (st : ClientState) :
    derive_supplier_from_purl oracle (.str purl) (.str name) st =
      specResolveClaim codeNormalize oracle purl name st := by
  unfold derive_supplier_from_purl specResolveClaim
  simp only [Json.isTruthy, strIsEmpty, Bool.not_not, pyInStr, normalizeName]
  cases he : purl.toList.isEmpty
  · simp only [Bool.false_eq_true, if_false]
    cases h1 : containsSubstr "pkg:pypi/".toList purl.toList
    · simp only []
      cases h2 : containsSubstr "pkg:npm/".toList purl.toList
      · simp only []
        cases h3 : containsSubstr "pkg:maven/".toList purl.toList <;> rfl
      · rfl
    · rfl
  · simp

theorem pyGetStrip_not_truthy {info : Json} {k s : String}
    (ht : info.isTruthy = false) (h : pyGetStrip info k = .ok s) : s = "" := by
  cases info with
  | obj fs =>
    cases fs with
    | nil =>
      simp [pyGetStrip] at h
      exact h.symm
    | cons p rest => simp [Json.isTruthy] at ht
  | null => simp [pyGetStrip] at h
  | bool b => simp [pyGetStrip] at h
  | num n => simp [pyGetStrip] at h
  | str s2 => simp [pyGetStrip] at h
  | arr xs => simp [pyGetStrip] at h

theorem projectUrlsOf_not_truthy {info : Json} {pfs : List (String × Json)}
    (ht : info.isTruthy = false) (h : projectUrlsOf info = .ok pfs) : pfs = [] := by
  cases info with
  | obj fs =>
    cases fs with
    | nil =>
      simp [projectUrlsOf] at h
      exact h
    | cons p rest => simp [Json.isTruthy] at ht
  | null => simp [projectUrlsOf] at h
  | bool b => simp [projectUrlsOf] at h
  | num n => simp [projectUrlsOf] at h
  | str s2 => simp [projectUrlsOf] at h
  | arr xs => simp [projectUrlsOf] at h

theorem extract_shape (meta : Json) (r : Option Json)
    (h : extract_pypi_supplier meta = .ok r) :
    ((infoOf meta).isTruthy = false ∧ r = none) ∨
    ((infoOf meta).isTruthy = true ∧
      ∃ mnt me au ae hp pfs,
        pyGetStrip (infoOf meta) "maintainer" = .ok mnt ∧
        pyGetStrip (infoOf meta) "maintainer_email" = .ok me ∧
        pyGetStrip (infoOf meta) "author" = .ok au ∧
        pyGetStrip (infoOf meta) "author_email" = .ok ae ∧
        pyGetStrip (infoOf meta) "home_page" = .ok hp ∧
        projectUrlsOf (infoOf meta) = .ok pfs ∧
        r = buildSupplier (pyOrStr mnt au) (pyOrStr me ae) hp pfs) := by
  unfold extract_pypi_supplier at h
  cases ht : (infoOf meta).isTruthy with
  | false =>
    rw [ht] at h
    simp at h
    exact Or.inl ⟨rfl, h.symm⟩
  | true =>
    rw [ht] at h
    simp only [Bool.not_true, Bool.false_eq_true, if_false] at h
    refine Or.inr ⟨rfl, ?_⟩
    cases h1 : pyGetStrip (infoOf meta) "maintainer" with
    | error e => rw [h1] at h; simp at h
    | ok mnt =>
      rw [h1] at h
      cases h2 : pyGetStrip (infoOf meta) "maintainer_email" with
      | error e => rw [h2] at h; simp at h
      | ok me =>
        rw [h2] at h
        cases h3 : pyGetStrip (infoOf meta) "author" with
        | error e => rw [h3] at h; simp at h
        | ok au =>
          rw [h3] at h
          cases h4 : pyGetStrip (infoOf meta) "author_email" with
          | error e => rw [h4] at h; simp at h
          | ok ae =>
            rw [h4] at h
            cases h5 : pyGetStrip (infoOf meta) "home_page" with
            | error e => rw [h5] at h; simp at h
            | ok hp =>
              rw [h5] at h
              cases h6 : projectUrlsOf (infoOf meta) with
              | error e => rw [h6] at h; simp at h
              | ok pfs =>
                rw [h6] at h
                simp only [Except.ok.injEq] at h
                exact ⟨mnt, me, au, ae, hp, pfs, rfl, rfl, rfl, rfl, rfl, rfl, h.symm⟩

theorem buildSupplier_name (name email hp : String) (pfs : List (String × Json)) :
    suppField (buildSupplier name email hp pfs) "name" =
      if strIsEmpty name then none else some (.str name) := by
  unfold buildSupplier
  cases hn : strIsEmpty name
  · cases hc : !strIsEmpty email && strContainsChar email '@' <;>
      cases hu : (collectUrls (if startsWithStr hp "http" then [hp] else []) pfs).isEmpty <;>
        simp [hn, hc, hu, suppField, objField, List.lookup_cons]
  · cases hu : (collectUrls (if startsWithStr hp "http" then [hp] else []) pfs).isEmpty <;>
      simp [hn, hu, suppField, objField, List.lookup_cons]

theorem buildSupplier_contact (name email hp : String) (pfs : List (String × Json)) :
    suppField (buildSupplier name email hp pfs) "contact" =
      if !strIsEmpty name && (!strIsEmpty email && strContainsChar email '@') then
        some (.arr [.obj [("name", .str name), ("email", .str email)]])
      else none := by
  unfold buildSupplier
  cases hn : strIsEmpty name
  · cases hc : !strIsEmpty email && strContainsChar email '@' <;>
      cases hu : (collectUrls (if startsWithStr hp "http" then [hp] else []) pfs).isEmpty <;>
        simp [hn, hc, hu, suppField, objField, List.lookup_cons]
  · cases hu : (collectUrls (if startsWithStr hp "http" then [hp] else []) pfs).isEmpty <;>
      simp [hn, hu, suppField, objField, List.lookup_cons]

theorem buildSupplier_url (name email hp : String) (pfs : List (String × Json)) :
    suppField (buildSupplier name email hp pfs) "url" =
      if (collectUrls (if startsWithStr hp "http" then [hp] else []) pfs).isEmpty then none
      else some (.arr (((collectUrls (if startsWithStr hp "http" then [hp] else []) pfs).take 3).map
        Json.str)) := by
  unfold buildSupplier
  cases hn : strIsEmpty name
  · cases hc : !strIsEmpty email && strContainsChar email '@' <;>
      cases hu : (collectUrls (if startsWithStr hp "http" then [hp] else []) pfs).isEmpty <;>
        simp [hn, hc, hu, suppField, objField, List.lookup_cons]
  · cases hu : (collectUrls (if startsWithStr hp "http" then [hp] else []) pfs).isEmpty <;>
      simp [hn, hu, suppField, objField, List.lookup_cons]

theorem collectUrls_eq_spec (pfs : List (String × Json)) :
    ∀ acc, collectUrls acc pfs = specUrlScan acc pfs := by
  induction pfs with
  | nil => intro acc; rfl
  | cons kv rest ih =>
    intro acc
    obtain ⟨k, v⟩ := kv
    cases v with
    | str u =>
      simp only [collectUrls, List.foldl_cons, specUrlScan] at ih ⊢
      cases hcond : startsWithStr u "http" && !(acc.contains u) &&
          (lowerStr k == "homepage" || lowerStr k == "repository" || lowerStr k == "source") <;>
        simp only [hcond, Bool.false_eq_true, if_false, if_true] <;> exact ih _
    | null => exact ih acc
    | bool b => exact ih acc
    | num n => exact ih acc
    | arr xs => exact ih acc
    | obj fs => exact ih acc

/-- C5: the extractor picks the supplier name as the first non-empty of
the trimmed maintainer then author names (no `name` field when both trim
empty), and any contact entry it emits pairs the maintainer-over-author
email with that same chosen name and only appears when that email
contains `@`. -/
theorem extract_name_and_contact_selection (meta : Json) (mnt me au ae : String) (r : Option Json)
    (hm : pyGetStrip (infoOf meta) "maintainer" = .ok mnt)
    (hme : pyGetStrip (infoOf meta) "maintainer_email" = .ok me)
    (ha : pyGetStrip (infoOf meta) "author" = .ok au)
    (hae : pyGetStrip (infoOf meta) "author_email" = .ok ae)
    (hr : extract_pypi_supplier meta = .ok r) :
    suppField r "name" =
      (if strIsEmpty (pyOrStr mnt au) then none else some (.str (pyOrStr mnt au))) ∧
    ∀ c, suppField r "contact" = some c →
      c = Json.arr [Json.obj [("name", Json.str (pyOrStr mnt au)),
        ("email", Json.str (pyOrStr me ae))]] ∧
      strContainsChar (pyOrStr me ae) '@' = true := by
  rcases extract_shape meta r hr with ⟨ht, hrn⟩ |
    ⟨ht, mnt2, me2, au2, ae2, hp2, pfs2, h1, h2, h3, h4, h5, h6, hb⟩
  · have hmnt : mnt = "" := pyGetStrip_not_truthy ht hm
    have hau : au = "" := pyGetStrip_not_truthy ht ha
    subst hrn hmnt hau
    constructor
    · simp [suppField, pyOrStr, strIsEmpty]
    · intro c hc
      simp [suppField] at hc
  · rw [hm] at h1
    rw [hme] at h2
    rw [ha] at h3
    rw [hae] at h4
    cases h1
    cases h2
    cases h3
    cases h4
    subst hb
    constructor
    · rw [buildSupplier_name]
    · intro c hc
      rw [buildSupplier_contact] at hc
      cases hcond : !strIsEmpty (pyOrStr mnt au) &&
          (!strIsEmpty (pyOrStr me ae) && strContainsChar (pyOrStr me ae) '@')
      · rw [hcond] at hc
        simp at hc
      · rw [hcond] at hc
        simp only [if_true] at hc
        have hat : strContainsChar (pyOrStr me ae) '@' = true := by
          have := hcond
          simp only [Bool.and_eq_true] at this
          exact this.2.2
        cases hc
        exact ⟨rfl, hat⟩

/-- C5 witness at the concrete metadata `metaW` (maintainer name `Alice`,
author email `bob@x`). -/
theorem extract_name_and_contact_selection_witness :
    suppField (some suppW) "name" =
      (if strIsEmpty (pyOrStr "Alice" "Bob") then none
       else some (.str (pyOrStr "Alice" "Bob"))) ∧
    (Json.arr [Json.obj [("name", Json.str "Alice"), ("email", Json.str "bob@x")]] =
      Json.arr [Json.obj [("name", Json.str (pyOrStr "Alice" "Bob")),
        ("email", Json.str (pyOrStr "" "bob@x"))]] ∧
      strContainsChar (pyOrStr "" "bob@x") '@' = true) :=
  ⟨(extract_name_and_contact_selection metaW "Alice" "" "Bob" "bob@x" (some suppW)
      rfl rfl rfl rfl rfl).1,
   (extract_name_and_contact_selection metaW "Alice" "" "Bob" "bob@x" (some suppW)
      rfl rfl rfl rfl rfl).2
     (Json.arr [Json.obj [("name", Json.str "Alice"), ("email", Json.str "bob@x")]]) rfl⟩

/-- C6: the extractor's URL list is the claim's scan — homepage first when
it starts with `http`, then each project-URL string value that starts with
`http`, is new, and whose key lowercases to `homepage`/`repository`/
`source`, in iteration order — capped at 3 entries, so any produced `url`
list has at most 3 entries. -/
theorem extract_url_selection (meta : Json) (hp : String) (pfs : List (String × Json))
    (r : Option Json)
    (hh : pyGetStrip (infoOf meta) "home_page" = .ok hp)
    (hpu : projectUrlsOf (infoOf meta) = .ok pfs)
    (hr : extract_pypi_supplier meta = .ok r) :
    suppField r "url" =
      (if (specUrlScan (if startsWithStr hp "http" then [hp] else []) pfs).isEmpty then none
       else some (.arr
        (((specUrlScan (if startsWithStr hp "http" then [hp] else []) pfs).take 3).map
          Json.str))) ∧
    ∀ us, suppField r "url" = some (.arr us) → us.length ≤ 3 := by
  have hmain : suppField r "url" =
      (if (specUrlScan (if startsWithStr hp "http" then [hp] else []) pfs).isEmpty then none
       else some (.arr
        (((specUrlScan (if startsWithStr hp "http" then [hp] else []) pfs).take 3).map
          Json.str))) := by
    rcases extract_shape meta r hr with ⟨ht, hrn⟩ |
      ⟨ht, mnt2, me2, au2, ae2, hp2, pfs2, h1, h2, h3, h4, h5, h6, hb⟩
    · have hhp : hp = "" := pyGetStrip_not_truthy ht hh
      have hpfs : pfs = [] := projectUrlsOf_not_truthy ht hpu
      subst hrn hhp hpfs
      rfl
    · rw [hh] at h5
      rw [hpu] at h6
      cases h5
      cases h6
      subst hb
      rw [buildSupplier_url, collectUrls_eq_spec]
  refine ⟨hmain, ?_⟩
  intro us hus
  rw [hmain] at hus
  cases hemp : (specUrlScan (if startsWithStr hp "http" then [hp] else []) pfs).isEmpty
  · rw [hemp] at hus
    simp only [Bool.false_eq_true, if_false, Option.some.injEq, Json.arr.injEq] at hus
    subst hus
    rw [List.length_map, List.length_take]
    exact min_le_left _ _
  · rw [hemp] at hus
    simp at hus

/-- C6 witness at the concrete metadata `metaW` (homepage plus one
`Source` project URL). -/
theorem extract_url_selection_witness :
    suppField (some suppW) "url" =
      (if (specUrlScan (if startsWithStr "http://h" "http" then ["http://h"] else [])
            [("Source", Json.str "http://s")]).isEmpty then none
       else some (.arr
        (((specUrlScan (if startsWithStr "http://h" "http" then ["http://h"] else [])
            [("Source", Json.str "http://s")]).take 3).map Json.str))) ∧
    ([Json.str "http://h", Json.str "http://s"] : List Json).length ≤ 3 :=
  ⟨(extract_url_selection metaW "http://h" [("Source", Json.str "http://s")] (some suppW)
      rfl rfl rfl).1,
   (extract_url_selection metaW "http://h" [("Source", Json.str "http://s")] (some suppW)
      rfl rfl rfl).2 [Json.str "http://h", Json.str "http://s"] rfl⟩

/-- C10: a contact entry exists only together with a `name` field and is
exactly one name/email pair reusing the record's chosen name; and a
metadata document with a valid email but no usable name and no URLs
produces no supplier record at all. -/
theorem contact_implies_name :
    (∀ (meta : Json) (r : Option Json) (c : Json),
        extract_pypi_supplier meta = .ok r → suppField r "contact" = some c →
        ∃ nm em, suppField r "name" = some (.str nm) ∧
          c = .arr [.obj [("name", .str nm), ("email", .str em)]]) ∧
    (∀ (meta : Json) (mnt au me hp : String) (pfs : List (String × Json)) (r : Option Json),
        pyGetStrip (infoOf meta) "maintainer" = .ok mnt →
        pyGetStrip (infoOf meta) "author" = .ok au →
        strIsEmpty mnt = true → strIsEmpty au = true →
        pyGetStrip (infoOf meta) "maintainer_email" = .ok me →
        strContainsChar me '@' = true →
        pyGetStrip (infoOf meta) "home_page" = .ok hp →
        startsWithStr hp "http" = false →
        projectUrlsOf (infoOf meta) = .ok pfs →
        specUrlScan [] pfs = [] →
        extract_pypi_supplier meta = .ok r → r = none) := by
  constructor
  · intro meta r c hr hc
    rcases extract_shape meta r hr with ⟨ht, hrn⟩ |
      ⟨ht, mnt2, me2, au2, ae2, hp2, pfs2, h1, h2, h3, h4, h5, h6, hb⟩
    · subst hrn
      simp [suppField] at hc
    · subst hb
      rw [buildSupplier_contact] at hc
      cases hcond : !strIsEmpty (pyOrStr mnt2 au2) &&
          (!strIsEmpty (pyOrStr me2 ae2) && strContainsChar (pyOrStr me2 ae2) '@')
      · rw [hcond] at hc
        simp at hc
      · rw [hcond] at hc
        simp only [if_true, Option.some.injEq] at hc
        have hname : strIsEmpty (pyOrStr mnt2 au2) = false := by
          have := hcond
          simp only [Bool.and_eq_true, Bool.not_eq_true'] at this
          exact this.1
        refine ⟨pyOrStr mnt2 au2, pyOrStr me2 ae2, ?_, hc.symm⟩
        rw [buildSupplier_name, hname]
        simp
  · intro meta mnt au me hp pfs r hm ha hmnt hau hme hat hh hhs hpu hscan hr
    rcases extract_shape meta r hr with ⟨ht, hrn⟩ |
      ⟨ht, mnt2, me2, au2, ae2, hp2, pfs2, h1, h2, h3, h4, h5, h6, hb⟩
    · exact hrn
    · rw [hm] at h1
      rw [ha] at h3
      rw [hh] at h5
      rw [hpu] at h6
      cases h1
      cases h3
      cases h5
      cases h6
      subst hb
      unfold buildSupplier
      have hpe : strIsEmpty (pyOrStr mnt au) = true := by
        unfold pyOrStr
        rw [hmnt]
        simpa using hau
      have hurls : collectUrls (if startsWithStr hp "http" then [hp] else []) pfs = [] := by
        rw [hhs]
        simp only [Bool.false_eq_true, if_false]
        rw [collectUrls_eq_spec]
        exact hscan
      simp [hpe, hurls]

theorem gained_refl (c : Json) : gained c c = false := by
  cases c with
  | obj fs =>
    simp only [gained]
    cases hasKey fs "supplier" <;> rfl
  | null => rfl
  | bool b => rfl
  | num n => rfl
  | str s => rfl
  | arr xs => rfl

theorem hasKey_append_self (comp : List (String × Json)) (j : Json) :
    hasKey (comp ++ [("supplier", j)]) "supplier" = true := by
  simp [hasKey]

theorem enrich_component_supplied (oracle : RegOracle) (st : ClientState)
    (comp : List (String × Json)) (h : hasKey comp "supplier" = true) :
    enrich_component oracle comp st = .ok (comp, false, st) := by
  unfold enrich_component
  rw [h]
  simp

theorem enrich_component_spec {oracle : RegOracle} {st : ClientState}
    {comp out2 : List (String × Json)} {added : Bool} {st2 : ClientState}
    (h : enrich_component oracle comp st = .ok (out2, added, st2)) :
    (added = false ∧ out2 = comp) ∨
    (added = true ∧ hasKey comp "supplier" = false ∧ hasKey out2 "supplier" = true) := by
  unfold enrich_component at h
  cases hk : hasKey comp "supplier"
  · rw [hk] at h
    simp only [Bool.false_eq_true, if_false] at h
    cases hd : derive_supplier_from_purl oracle ((comp.lookup "purl").getD (.str ""))
        ((comp.lookup "name").getD (.str "")) st with
    | error e =>
      rw [hd] at h
      simp at h
    | ok p =>
      rw [hd] at h
      obtain ⟨s, st3⟩ := p
      dsimp only at h
      cases s with
      | none =>
        simp only [Except.ok.injEq, Prod.mk.injEq] at h
        exact Or.inl ⟨h.2.1.symm, h.1.symm⟩
      | some j =>
        dsimp only at h
        cases hj : j.isTruthy
        · rw [hj] at h
          simp only [Bool.false_eq_true, if_false, Except.ok.injEq, Prod.mk.injEq] at h
          exact Or.inl ⟨h.2.1.symm, h.1.symm⟩
        · rw [hj] at h
          simp only [if_true, Except.ok.injEq, Prod.mk.injEq] at h
          refine Or.inr ⟨h.2.1.symm, rfl, ?_⟩
          rw [← h.1]
          exact hasKey_append_self comp j
  · rw [hk] at h
    simp only [if_true, Except.ok.injEq, Prod.mk.injEq] at h
    exact Or.inl ⟨h.2.1.symm, h.1.symm⟩

theorem enrich_components_spec (oracle : RegOracle) :
    ∀ (xs : List Json) (st : ClientState) (ys : List Json) (n : Nat) (st2 : ClientState),
    enrich_components oracle xs st = .ok (ys, n, st2) →
    ys.length = xs.length ∧
    n = ((xs.zip ys).countP fun p => gained p.1 p.2) ∧
    ∀ p ∈ xs.zip ys, objHasSupplier p.1 = true → p.2 = p.1 := by
  intro xs
  induction xs with
  | nil =>
    intro st ys n st2 h
    unfold enrich_components at h
    simp only [Except.ok.injEq, Prod.mk.injEq] at h
    refine ⟨by rw [← h.1], by rw [← h.1, ← h.2.1]; rfl, ?_⟩
    intro p hp
    rw [← h.1] at hp
    simp at hp
  | cons c rest ih =>
    intro st ys n st2 h
    unfold enrich_components at h
    cases hobj : c.asObj with
    | some cf =>
      rw [hobj] at h
      dsimp only at h
      cases hstep : enrich_component oracle cf st with
      | error e =>
        rw [hstep] at h
        simp at h
      | ok t =>
        rw [hstep] at h
        obtain ⟨cf2, added, stm⟩ := t
        dsimp only at h
        cases hrest : enrich_components oracle rest stm with
        | error e =>
          rw [hrest] at h
          simp at h
        | ok t2 =>
          rw [hrest] at h
          obtain ⟨rest2, n2, st3⟩ := t2
          dsimp only at h
          simp only [Except.ok.injEq, Prod.mk.injEq] at h
          obtain ⟨hys, hn, hst⟩ := h
          obtain ⟨hlen, hcnt, hframe⟩ := ih stm rest2 n2 st3 hrest
          have hc : c = .obj cf := by
            cases c <;> simp_all [Json.asObj]
          subst hc
          subst hys
          refine ⟨by simp [hlen], ?_, ?_⟩
          · rw [List.zip_cons_cons, List.countP_cons, ← hn, hcnt]
            rcases enrich_component_spec hstep with ⟨ha, hout⟩ | ⟨ha, hk1, hk2⟩
            · subst ha hout
              simp [gained_refl, Nat.add_comm]
            · subst ha
              simp only [gained, hk1, hk2, Bool.not_false, Bool.and_self]
              simp [Nat.add_comm]
          · intro p hp hsup
            rw [List.zip_cons_cons, List.mem_cons] at hp
            rcases hp with hp | hp
            · subst hp
              simp only [objHasSupplier] at hsup
              rw [enrich_component_supplied oracle st cf hsup] at hstep
              simp only [Except.ok.injEq, Prod.mk.injEq] at hstep
              simp [hstep.1]
            · exact hframe p hp hsup
    | none =>
      rw [hobj] at h
      dsimp only at h
      cases hrest : enrich_components oracle rest st with
      | error e =>
        rw [hrest] at h
        simp at h
      | ok t2 =>
        rw [hrest] at h
        obtain ⟨rest2, n2, st3⟩ := t2
        dsimp only at h
        simp only [Except.ok.injEq, Prod.mk.injEq] at h
        obtain ⟨hys, hn, hst⟩ := h
        obtain ⟨hlen, hcnt, hframe⟩ := ih st rest2 n2 st3 hrest
        subst hys
        refine ⟨by simp [hlen], ?_, ?_⟩
        · rw [List.zip_cons_cons, List.countP_cons, ← hn, hcnt, gained_refl]
          simp
        · intro p hp hsup
          rw [List.zip_cons_cons, List.mem_cons] at hp
          rcases hp with hp | hp
          · subst hp
            rfl
          · exact hframe p hp hsup

theorem enrich_metadata_spec {oracle : RegOracle} {fs1 : List (String × Json)}
    {st : ClientState} {n1 : Nat} {out : Json} {n : Nat}
    (h : enrich_metadata oracle fs1 st n1 = .ok (out, n)) :
    (∃ mfs cf cf2 added st2, metaCompFields fs1 = some (mfs, cf) ∧
      enrich_component oracle cf st = .ok (cf2, added, st2) ∧
      out = .obj (setKey fs1 "metadata" (.obj (setKey mfs "component" (.obj cf2)))) ∧
      n = n1 + (if added then 1 else 0)) ∨
    (metaCompFields fs1 = none ∧ out = .obj fs1 ∧ n = n1) := by
  unfold enrich_metadata at h
  unfold metaCompFields
  cases hm : (fs1.lookup "metadata").bind Json.asObj with
  | none =>
    rw [hm] at h
    simp only [Except.ok.injEq, Prod.mk.injEq] at h
    exact Or.inr ⟨rfl, h.1.symm, h.2.symm⟩
  | some mfs =>
    rw [hm] at h
    dsimp only at h ⊢
    cases hcomp : (mfs.lookup "component").bind Json.asObj with
    | none =>
      rw [hcomp] at h
      dsimp only at h
      simp only [hcomp]
      simp only [Except.ok.injEq, Prod.mk.injEq] at h
      exact Or.inr ⟨trivial, h.1.symm, h.2.symm⟩
    | some cf =>
      rw [hcomp] at h
      dsimp only at h
      simp only [hcomp]
      cases hstep : enrich_component oracle cf st with
      | error e =>
        rw [hstep] at h
        simp at h
      | ok t =>
        rw [hstep] at h
        obtain ⟨cf2, added, st2⟩ := t
        dsimp only at h
        simp only [Except.ok.injEq, Prod.mk.injEq] at h
        exact Or.inl ⟨mfs, cf, cf2, added, st2, rfl, hstep, h.1.symm, h.2.symm⟩

theorem metaCompOf_obj (fs : List (String × Json)) :
    metaCompOf (.obj fs) = (metaCompFields fs).map (fun p => Json.obj p.2) := by
  unfold metaCompOf metaCompFields
  dsimp only [Json.asObj]
  cases h1 : (fs.lookup "metadata").bind Json.asObj with
  | none => rfl
  | some mfs =>
    dsimp only
    cases h2 : (mfs.lookup "component").bind Json.asObj with
    | none => rfl
    | some cf => rfl

theorem metaCompFields_setKey_components (fs : List (String × Json)) (v : Json) :
    metaCompFields (setKey fs "components" v) = metaCompFields fs := by
  unfold metaCompFields
  rw [lookup_setKey_other fs (by decide)]

theorem componentsOf_obj_some {fs : List (String × Json)} {xs : List Json}
    (h : (fs.lookup "components").bind Json.asArr = some xs) :
    componentsOf (.obj fs) = xs := by
  unfold componentsOf
  dsimp only [Json.asObj]
  rw [h]

theorem componentsOf_obj_none {fs : List (String × Json)}
    (h : (fs.lookup "components").bind Json.asArr = none) :
    componentsOf (.obj fs) = [] := by
  unfold componentsOf
  dsimp only [Json.asObj]
  rw [h]

/-- Decomposition of a successful `enrich_sbom` run: its count splits into
a components part — an `enrich_components` run carrying `componentsOf` of
the input to `componentsOf` of the output — and a metadata part, which is
either absent on both sides or a single `enrich_component` step. -/
theorem enrich_sbom_run (oracle : RegOracle) (sbom out : Json) (n : Nat)
    (h : enrich_sbom oracle sbom = .ok (out, n)) :
    ∃ ncomp nmeta,
      n = ncomp + nmeta ∧
      (∃ stA stB, enrich_components oracle (componentsOf sbom) stA =
        .ok (componentsOf out, ncomp, stB)) ∧
      ((metaCompOf sbom = none ∧ metaCompOf out = none ∧ nmeta = 0) ∨
       (∃ cfA cfB added stC stD,
          metaCompOf sbom = some (.obj cfA) ∧ metaCompOf out = some (.obj cfB) ∧
          enrich_component oracle cfA stC = .ok (cfB, added, stD) ∧
          nmeta = (if added then 1 else 0))) := by
  unfold enrich_sbom at h
  cases hobj : sbom.asObj with
  | none =>
    rw [hobj] at h
    simp at h
  | some fs =>
    rw [hobj] at h
    dsimp only at h
    have hsbom : sbom = .obj fs := by
      cases sbom <;> simp_all [Json.asObj]
    subst hsbom
    cases hcl : (fs.lookup "components").bind Json.asArr with
    | some xs =>
      rw [hcl] at h
      dsimp only at h
      cases hrun : enrich_components oracle xs ⟨[]⟩ with
      | error e =>
        rw [hrun] at h
        simp at h
      | ok t =>
        rw [hrun] at h
        obtain ⟨ys, n1, st⟩ := t
        dsimp only at h
        have hxs : componentsOf (Json.obj fs) = xs := componentsOf_obj_some hcl
        have hmfs : metaCompFields (setKey fs "components" (.arr ys)) = metaCompFields fs :=
          metaCompFields_setKey_components fs (.arr ys)
        rcases enrich_metadata_spec h with
          ⟨mfs, cf, cf2, added, st2, hmc, hstep, hout, hn⟩ | ⟨hmc, hout, hn⟩
        · rw [hmfs] at hmc
          have hys : componentsOf out = ys := by
            rw [hout]
            apply componentsOf_obj_some
            rw [lookup_setKey_other _ (by decide), lookup_setKey_self]
            rfl
          have hmOld : metaCompOf (Json.obj fs) = some (.obj cf) := by
            rw [metaCompOf_obj, hmc]
            rfl
          have hmNew : metaCompOf out = some (.obj cf2) := by
            rw [hout, metaCompOf_obj]
            unfold metaCompFields
            rw [lookup_setKey_self]
            dsimp only [Json.asObj, Option.bind]
            rw [lookup_setKey_self]
            rfl
          refine ⟨n1, (if added then 1 else 0), hn, ⟨⟨[]⟩, st, ?_⟩,
            Or.inr ⟨cf, cf2, added, st, st2, hmOld, hmNew, hstep, rfl⟩⟩
          rw [hxs, hys]
          exact hrun
        · rw [hmfs] at hmc
          have hys : componentsOf out = ys := by
            rw [hout]
            apply componentsOf_obj_some
            rw [lookup_setKey_self]
            rfl
          have hmOld : metaCompOf (Json.obj fs) = none := by
            rw [metaCompOf_obj, hmc]
            rfl
          have hmNew : metaCompOf out = none := by
            rw [hout, metaCompOf_obj]
            rw [← hmfs] at hmc
            rw [hmc]
            rfl
          refine ⟨n1, 0, by omega, ⟨⟨[]⟩, st, ?_⟩, Or.inl ⟨hmOld, hmNew, rfl⟩⟩
          rw [hxs, hys]
          exact hrun
    | none =>
      rw [hcl] at h
      dsimp only at h
      have hxs : componentsOf (Json.obj fs) = [] := componentsOf_obj_none hcl
      rcases enrich_metadata_spec h with
        ⟨mfs, cf, cf2, added, st2, hmc, hstep, hout, hn⟩ | ⟨hmc, hout, hn⟩
      · have hys : componentsOf out = [] := by
          rw [hout]
          apply componentsOf_obj_none
          rw [lookup_setKey_other _ (by decide)]
          exact hcl
        have hmOld : metaCompOf (Json.obj fs) = some (.obj cf) := by
          rw [metaCompOf_obj, hmc]
          rfl
        have hmNew : metaCompOf out = some (.obj cf2) := by
          rw [hout, metaCompOf_obj]
          unfold metaCompFields
          rw [lookup_setKey_self]
          dsimp only [Json.asObj, Option.bind]
          rw [lookup_setKey_self]
          rfl
        refine ⟨0, (if added then 1 else 0), by omega, ⟨⟨[]⟩, ⟨[]⟩, ?_⟩,
          Or.inr ⟨cf, cf2, added, ⟨[]⟩, st2, hmOld, hmNew, hstep, rfl⟩⟩
        rw [hxs, hys]
        rfl
      · have hys : componentsOf out = [] := by
          rw [hout]
          exact componentsOf_obj_none hcl
        have hmOld : metaCompOf (Json.obj fs) = none := by
          rw [metaCompOf_obj, hmc]
          rfl
        have hmNew : metaCompOf out = none := by
          rw [hout, metaCompOf_obj, hmc]
          rfl
        refine ⟨0, 0, by omega, ⟨⟨[]⟩, ⟨[]⟩, ?_⟩, Or.inl ⟨hmOld, hmNew, rfl⟩⟩
        rw [hxs, hys]
        rfl

/-- C1: a successful `enrich_sbom` run returns exactly the number of
entries — components-list members plus `metadata.component` — that gained
a new `supplier` field during the run (0 when none qualifies). -/
theorem enrich_sbom_counts_new_suppliers (oracle : RegOracle) (sbom out : Json) (n : Nat)
    (h : enrich_sbom oracle sbom = .ok (out, n)) :
    n = gainedCount sbom out := by
  obtain ⟨ncomp, nmeta, hn, ⟨stA, stB, hrun⟩, hmeta⟩ := enrich_sbom_run oracle sbom out n h
  obtain ⟨hlen, hcnt, hframe⟩ := enrich_components_spec oracle _ _ _ _ _ hrun
  unfold gainedCount
  rcases hmeta with ⟨hmo, hmn, hz⟩ | ⟨cfA, cfB, added, stC, stD, hmo, hmn, hstep, hz⟩
  · rw [hmo, hmn]
    dsimp only
    omega
  · rw [hmo, hmn]
    dsimp only
    rcases enrich_component_spec hstep with ⟨ha, hout2⟩ | ⟨ha, hk1, hk2⟩
    · subst ha hout2
      rw [gained_refl]
      simp only [Bool.false_eq_true, if_false] at hz ⊢
      omega
    · subst ha
      have hg : gained (.obj cfA) (.obj cfB) = true := by
        simp [gained, hk1, hk2]
      rw [hg]
      simp only [if_true] at hz ⊢
      omega

/-- C1 witness: a run over one qualifying PyPI component reports exactly
one gained supplier. -/
theorem enrich_sbom_counts_new_suppliers_witness :
    (1 : Nat) = gainedCount sbomOneComp sbomOneCompOut :=
  enrich_sbom_counts_new_suppliers oracleM sbomOneComp sbomOneCompOut 1 rfl

/-- C2: a component already carrying a `supplier` key is returned exactly
as it is, unflagged and with the client untouched; document-wide, every
components-list entry and the `metadata.component` that already had a
supplier is byte-identical in the output. -/
theorem supplied_components_untouched :
    (∀ (oracle : RegOracle) (st : ClientState) (comp : List (String × Json)),
        hasKey comp "supplier" = true →
        enrich_component oracle comp st = .ok (comp, false, st)) ∧
    (∀ (oracle : RegOracle) (sbom out : Json) (n : Nat),
        enrich_sbom oracle sbom = .ok (out, n) →
        (∀ p ∈ (componentsOf sbom).zip (componentsOf out),
            objHasSupplier p.1 = true → p.2 = p.1) ∧
        (∀ a, metaCompOf sbom = some a → objHasSupplier a = true → metaCompOf out = some a)) := by
  constructor
  · exact fun oracle st comp h => enrich_component_supplied oracle st comp h
  · intro oracle sbom out n h
    obtain ⟨ncomp, nmeta, hn, ⟨stA, stB, hrun⟩, hmeta⟩ := enrich_sbom_run oracle sbom out n h
    obtain ⟨hlen, hcnt, hframe⟩ := enrich_components_spec oracle _ _ _ _ _ hrun
    refine ⟨hframe, ?_⟩
    intro a hma hsup
    rcases hmeta with ⟨hmo, hmn, hz⟩ | ⟨cfA, cfB, added, stC, stD, hmo, hmn, hstep, hz⟩
    · rw [hmo] at hma
      exact Option.noConfusion hma
    · rw [hmo] at hma
      injection hma with hma
      subst hma
      simp only [objHasSupplier] at hsup
      rw [enrich_component_supplied oracle stC cfA hsup] at hstep
      simp only [Except.ok.injEq, Prod.mk.injEq] at hstep
      rw [hmn, ← hstep.1]

/-- C2 witness: a supplied component passes through `_enrich_component`
unchanged, and a supplied `metadata.component` survives a full run. -/
theorem supplied_components_untouched_witness :
    enrich_component oracleM [("supplier", Json.str "x")] ⟨[]⟩ =
      .ok ([("supplier", Json.str "x")], false, ⟨[]⟩) ∧
    metaCompOf sbomSupplied = some (.obj [("supplier", Json.str "y")]) := by
  constructor
  · exact supplied_components_untouched.1 oracleM ⟨[]⟩ [("supplier", Json.str "x")] rfl
  · exact (supplied_components_untouched.2 oracleM sbomSupplied sbomSupplied 0 rfl).2
      (.obj [("supplier", Json.str "y")]) rfl rfl

theorem derive_of_cacheOK (oracle : RegOracle) (st : ClientState) (purl name : Json)
    (h : CacheOK oracle st) :
    (derive_supplier_from_purl oracle purl name st = .error () ∧
      pure_derive oracle purl name = .error ()) ∨
    (∃ v st2, derive_supplier_from_purl oracle purl name st = .ok (v, st2) ∧
      pure_derive oracle purl name = .ok v ∧ CacheOK oracle st2) := by
  unfold derive_supplier_from_purl pure_derive
  cases ht : purl.isTruthy
  · simp only [ht, Bool.not_false, if_true]
    exact Or.inr ⟨none, st, rfl, rfl, h⟩
  · simp only [ht, Bool.not_true, Bool.false_eq_true, if_false]
    cases h1 : pyInStr "pkg:pypi/" purl with
    | error e =>
      cases e
      exact Or.inl ⟨rfl, rfl⟩
    | ok b =>
      cases b with
      | true =>
        dsimp only
        cases h2 : normalizeName name with
        | error e =>
          cases e
          exact Or.inl ⟨rfl, rfl⟩
        | ok nn =>
          dsimp only
          have hv : (get_package oracle st nn).value = fetch_value oracle nn :=
            get_package_value oracle st nn h
          have hs2 : CacheOK oracle (get_package oracle st nn).state :=
            get_package_cacheOK oracle st nn h
          rw [← hv]
          cases hval : (get_package oracle st nn).value with
          | none =>
            exact Or.inr ⟨none, (get_package oracle st nn).state, rfl, rfl, hs2⟩
          | some m =>
            dsimp only
            cases hm : m.isTruthy
            · simp only [hm, Bool.false_eq_true, if_false]
              exact Or.inr ⟨none, (get_package oracle st nn).state, rfl, rfl, hs2⟩
            · simp only [hm, if_true]
              cases he : extract_pypi_supplier m with
              | error e =>
                cases e
                exact Or.inl ⟨rfl, rfl⟩
              | ok s =>
                exact Or.inr ⟨s, (get_package oracle st nn).state, rfl, rfl, hs2⟩
      | false =>
        dsimp only
        cases h2 : pyInStr "pkg:npm/" purl with
        | error e =>
          cases e
          exact Or.inl ⟨rfl, rfl⟩
        | ok b2 =>
          cases b2 with
          | true => exact Or.inr ⟨some npmPlaceholder, st, rfl, rfl, h⟩
          | false =>
            dsimp only
            cases h3 : pyInStr "pkg:maven/" purl with
            | error e =>
              cases e
              exact Or.inl ⟨rfl, rfl⟩
            | ok b3 =>
              cases b3 with
              | true => exact Or.inr ⟨some mavenPlaceholder, st, rfl, rfl, h⟩
              | false => exact Or.inr ⟨none, st, rfl, rfl, h⟩

theorem enrich_component_of_cacheOK (oracle : RegOracle) (st : ClientState)
    (comp : List (String × Json)) (h : CacheOK oracle st) :
    (enrich_component oracle comp st = .error () ∧
      pure_enrich_component oracle comp = .error ()) ∨
    (∃ out added st2, enrich_component oracle comp st = .ok (out, added, st2) ∧
      pure_enrich_component oracle comp = .ok (out, added) ∧ CacheOK oracle st2) := by
  unfold enrich_component pure_enrich_component
  cases hk : hasKey comp "supplier"
  · simp only [hk, Bool.false_eq_true, if_false]
    rcases derive_of_cacheOK oracle st ((comp.lookup "purl").getD (.str ""))
        ((comp.lookup "name").getD (.str "")) h with ⟨hd1, hd2⟩ | ⟨v, st2, hd1, hd2, hok2⟩
    · rw [hd1, hd2]
      exact Or.inl ⟨rfl, rfl⟩
    · rw [hd1, hd2]
      cases v with
      | none => exact Or.inr ⟨comp, false, st2, rfl, rfl, hok2⟩
      | some j =>
        dsimp only
        cases hj : j.isTruthy
        · simp only [hj, Bool.false_eq_true, if_false]
          exact Or.inr ⟨comp, false, st2, rfl, rfl, hok2⟩
        · simp only [hj, if_true]
          exact Or.inr ⟨comp ++ [("supplier", j)], true, st2, rfl, rfl, hok2⟩
  · simp only [hk, if_true]
    exact Or.inr ⟨comp, false, st, rfl, rfl, h⟩

theorem pure_enrich_component_idem (oracle : RegOracle) (comp out : List (String × Json))
    (added : Bool) (h : pure_enrich_component oracle comp = .ok (out, added)) :
    pure_enrich_component oracle out = .ok (out, false) := by
  unfold pure_enrich_component at h
  cases hk : hasKey comp "supplier"
  · rw [hk] at h
    simp only [Bool.false_eq_true, if_false] at h
    cases hd : pure_derive oracle ((comp.lookup "purl").getD (.str ""))
        ((comp.lookup "name").getD (.str "")) with
    | error e =>
      rw [hd] at h
      simp at h
    | ok s =>
      rw [hd] at h
      cases s with
      | none =>
        simp only [Except.ok.injEq, Prod.mk.injEq] at h
        obtain ⟨h1, h2⟩ := h
        subst h1
        unfold pure_enrich_component
        rw [hk]
        simp only [Bool.false_eq_true, if_false]
        rw [hd]
      | some j =>
        dsimp only at h
        cases hj : j.isTruthy
        · rw [hj] at h
          simp only [Bool.false_eq_true, if_false, Except.ok.injEq, Prod.mk.injEq] at h
          obtain ⟨h1, h2⟩ := h
          subst h1
          unfold pure_enrich_component
          rw [hk]
          simp only [Bool.false_eq_true, if_false]
          rw [hd]
          dsimp only
          rw [hj]
          simp
        · rw [hj] at h
          simp only [if_true, Except.ok.injEq, Prod.mk.injEq] at h
          obtain ⟨h1, h2⟩ := h
          subst h1
          unfold pure_enrich_component
          rw [hasKey_append_self]
          simp
  · rw [hk] at h
    simp only [if_true, Except.ok.injEq, Prod.mk.injEq] at h
    obtain ⟨h1, h2⟩ := h
    subst h1
    unfold pure_enrich_component
    rw [hk]
    simp

theorem enrich_component_preserves_cacheOK (oracle : RegOracle) (st : ClientState)
    (cf cf2 : List (String × Json)) (added : Bool) (stm : ClientState)
    (hok : CacheOK oracle st) (hstep : enrich_component oracle cf st = .ok (cf2, added, stm)) :
    CacheOK oracle stm := by
  rcases enrich_component_of_cacheOK oracle st cf hok with ⟨he1, _⟩ | ⟨o, a, sx, he1, he2, hokm⟩
  · rw [he1] at hstep
    exact absurd hstep (by simp)
  · rw [he1] at hstep
    simp only [Except.ok.injEq, Prod.mk.injEq] at hstep
    exact hstep.2.2 ▸ hokm

theorem enrich_component_second (oracle : RegOracle) (stA stB : ClientState)
    (cf cf2 : List (String × Json)) (added : Bool) (stm : ClientState)
    (hokA : CacheOK oracle stA) (hokB : CacheOK oracle stB)
    (hstep : enrich_component oracle cf stA = .ok (cf2, added, stm)) :
    ∃ st5, enrich_component oracle cf2 stB = .ok (cf2, false, st5) ∧ CacheOK oracle st5 := by
  rcases enrich_component_of_cacheOK oracle stA cf hokA with ⟨he1, _⟩ | ⟨o, a, sx, he1, he2, _⟩
  · rw [he1] at hstep
    exact absurd hstep (by simp)
  · rw [he1] at hstep
    simp only [Except.ok.injEq, Prod.mk.injEq] at hstep
    obtain ⟨h1, h2, h3⟩ := hstep
    rw [h1, h2] at he2
    have hpure2 : pure_enrich_component oracle cf2 = .ok (cf2, false) :=
      pure_enrich_component_idem oracle cf cf2 added he2
    rcases enrich_component_of_cacheOK oracle stB cf2 hokB with ⟨hf1, hf2⟩ |
      ⟨o2, a2, sx2, hf1, hf2, hok5⟩
    · rw [hpure2] at hf2
      exact absurd hf2 (by simp)
    · rw [hpure2] at hf2
      simp only [Except.ok.injEq, Prod.mk.injEq] at hf2
      obtain ⟨g1, g2⟩ := hf2
      rw [← g1, ← g2] at hf1
      exact ⟨sx2, hf1, hok5⟩

theorem enrich_components_idem (oracle : RegOracle) :
    ∀ (xs : List Json) (st : ClientState) (ys : List Json) (n : Nat) (st1 : ClientState),
    CacheOK oracle st →
    enrich_components oracle xs st = .ok (ys, n, st1) →
    CacheOK oracle st1 ∧
    ∀ st2, CacheOK oracle st2 →
      ∃ st3, enrich_components oracle ys st2 = .ok (ys, 0, st3) ∧ CacheOK oracle st3 := by
  intro xs
  induction xs with
  | nil =>
    intro st ys n st1 hok h
    unfold enrich_components at h
    simp only [Except.ok.injEq, Prod.mk.injEq] at h
    obtain ⟨h1, h2, h3⟩ := h
    subst h1
    subst h3
    refine ⟨hok, ?_⟩
    intro st2 hok2
    exact ⟨st2, rfl, hok2⟩
  | cons c rest ih =>
    intro st ys n st1 hok h
    unfold enrich_components at h
    cases hobj : c.asObj with
    | some cf =>
      rw [hobj] at h
      dsimp only at h
      cases hstep : enrich_component oracle cf st with
      | error e =>
        rw [hstep] at h
        simp at h
      | ok t =>
        rw [hstep] at h
        obtain ⟨cf2, added, stm⟩ := t
        dsimp only at h
        cases hrest : enrich_components oracle rest stm with
        | error e =>
          rw [hrest] at h
          simp at h
        | ok t2 =>
          rw [hrest] at h
          obtain ⟨rest2, n2, st3⟩ := t2
          dsimp only at h
          simp only [Except.ok.injEq, Prod.mk.injEq] at h
          obtain ⟨hys, hn, hst⟩ := h
          subst hst
          have hokm : CacheOK oracle stm :=
            enrich_component_preserves_cacheOK oracle st cf cf2 added stm hok hstep
          obtain ⟨hokEnd, hsecond⟩ := ih stm rest2 n2 st3 hokm hrest
          refine ⟨hokEnd, ?_⟩
          intro st2 hok2
          obtain ⟨st5, hstep2, hok5⟩ :=
            enrich_component_second oracle st st2 cf cf2 added stm hok hok2 hstep
          obtain ⟨st4, hrest2, hok4⟩ := hsecond st5 hok5
          refine ⟨st4, ?_, hok4⟩
          subst hys
          unfold enrich_components
          dsimp only [Json.asObj]
          rw [hstep2]
          dsimp only
          rw [hrest2]
          simp
    | none =>
      rw [hobj] at h
      dsimp only at h
      cases hrest : enrich_components oracle rest st with
      | error e =>
        rw [hrest] at h
        simp at h
      | ok t2 =>
        rw [hrest] at h
        obtain ⟨rest2, n2, st3⟩ := t2
        dsimp only at h
        simp only [Except.ok.injEq, Prod.mk.injEq] at h
        obtain ⟨hys, hn, hst⟩ := h
        subst hst
        obtain ⟨hokEnd, hsecond⟩ := ih st rest2 n2 st3 hok hrest
        refine ⟨hokEnd, ?_⟩
        intro st2 hok2
        obtain ⟨st4, hrest2, hok4⟩ := hsecond st2 hok2
        refine ⟨st4, ?_, hok4⟩
        subst hys
        unfold enrich_components
        rw [hobj]
        dsimp only
        rw [hrest2]

theorem enrich_metadata_none (oracle : RegOracle) (fs1 : List (String × Json))
    (st : ClientState) (n1 : Nat) (h : metaCompFields fs1 = none) :
    enrich_metadata oracle fs1 st n1 = .ok (.obj fs1, n1) := by
  unfold enrich_metadata
  unfold metaCompFields at h
  cases hm : (fs1.lookup "metadata").bind Json.asObj with
  | none => rfl
  | some mfs =>
    rw [hm] at h
    dsimp only at h ⊢
    cases hc2 : (mfs.lookup "component").bind Json.asObj with
    | none => rfl
    | some cf =>
      rw [hc2] at h
      simp at h

/-- C9: enrichment is idempotent — a second run on the output of a
successful run, against the same registry behaviour, reproduces the output
unchanged and reports an updated-count of 0. -/
theorem enrich_sbom_idempotent (oracle : RegOracle) (sbom out : Json) (n : Nat)
    (h : enrich_sbom oracle sbom = .ok (out, n)) :
    enrich_sbom oracle out = .ok (out, 0) := by
  unfold enrich_sbom at h
  cases hobj : sbom.asObj with
  | none =>
    rw [hobj] at h
    simp at h
  | some fs =>
    rw [hobj] at h
    dsimp only at h
    cases hcl : (fs.lookup "components").bind Json.asArr with
    | some xs =>
      rw [hcl] at h
      dsimp only at h
      cases hrun : enrich_components oracle xs ⟨[]⟩ with
      | error e =>
        rw [hrun] at h
        simp at h
      | ok t =>
        rw [hrun] at h
        obtain ⟨ys, n1, st⟩ := t
        dsimp only at h
        obtain ⟨hokSt, hsecond⟩ :=
          enrich_components_idem oracle xs ⟨[]⟩ ys n1 st (cacheOK_empty oracle) hrun
        rcases enrich_metadata_spec h with
          ⟨mfs, cf, cf2, added, st2, hmc, hstep, hout, hn⟩ | ⟨hmc, hout, hn⟩
        · subst hout
          unfold enrich_sbom
          dsimp only [Json.asObj]
          have hclOut : (((setKey (setKey fs "components" (Json.arr ys)) "metadata"
              (Json.obj (setKey mfs "component" (Json.obj cf2)))).lookup "components").bind
                Json.asArr) = some ys := by
            rw [lookup_setKey_other _ (by decide), lookup_setKey_self]
            rfl
          rw [hclOut]
          dsimp only
          obtain ⟨st4, hrun2, hok4⟩ := hsecond ⟨[]⟩ (cacheOK_empty oracle)
          rw [hrun2]
          dsimp only
          have hsk : setKey (setKey (setKey fs "components" (Json.arr ys)) "metadata"
              (Json.obj (setKey mfs "component" (Json.obj cf2)))) "components" (Json.arr ys) =
              setKey (setKey fs "components" (Json.arr ys)) "metadata"
                (Json.obj (setKey mfs "component" (Json.obj cf2))) := by
            apply setKey_id
            rw [lookup_setKey_other _ (by decide), lookup_setKey_self]
          rw [hsk]
          unfold enrich_metadata
          rw [lookup_setKey_self]
          dsimp only [Json.asObj, Option.bind]
          rw [lookup_setKey_self]
          dsimp only [Json.asObj]
          obtain ⟨st5, hstep2, hok5⟩ :=
            enrich_component_second oracle st st4 cf cf2 added st2 hokSt hok4 hstep
          rw [hstep2]
          dsimp only
          have h1 : setKey (setKey mfs "component" (Json.obj cf2)) "component" (Json.obj cf2) =
              setKey mfs "component" (Json.obj cf2) := by
            apply setKey_id
            rw [lookup_setKey_self]
          have h2 : setKey (setKey (setKey fs "components" (Json.arr ys)) "metadata"
              (Json.obj (setKey mfs "component" (Json.obj cf2)))) "metadata"
              (Json.obj (setKey mfs "component" (Json.obj cf2))) =
              setKey (setKey fs "components" (Json.arr ys)) "metadata"
                (Json.obj (setKey mfs "component" (Json.obj cf2))) := by
            apply setKey_id
            rw [lookup_setKey_self]
          rw [h1, h2]
          simp
        · subst hout
          unfold enrich_sbom
          dsimp only [Json.asObj]
          have hclOut : (((setKey fs "components" (Json.arr ys)).lookup "components").bind
              Json.asArr) = some ys := by
            rw [lookup_setKey_self]
            rfl
          rw [hclOut]
          dsimp only
          obtain ⟨st4, hrun2, hok4⟩ := hsecond ⟨[]⟩ (cacheOK_empty oracle)
          rw [hrun2]
          dsimp only
          have hsk : setKey (setKey fs "components" (Json.arr ys)) "components" (Json.arr ys) =
              setKey fs "components" (Json.arr ys) := by
            apply setKey_id
            rw [lookup_setKey_self]
          rw [hsk]
          rw [enrich_metadata_none oracle _ st4 0 hmc]
    | none =>
      rw [hcl] at h
      dsimp only at h
      rcases enrich_metadata_spec h with
        ⟨mfs, cf, cf2, added, st2, hmc, hstep, hout, hn⟩ | ⟨hmc, hout, hn⟩
      · subst hout
        unfold enrich_sbom
        dsimp only [Json.asObj]
        have hclOut : (((setKey fs "metadata"
            (Json.obj (setKey mfs "component" (Json.obj cf2)))).lookup "components").bind
              Json.asArr) = none := by
          rw [lookup_setKey_other _ (by decide)]
          exact hcl
        rw [hclOut]
        dsimp only
        unfold enrich_metadata
        rw [lookup_setKey_self]
        dsimp only [Json.asObj, Option.bind]
        rw [lookup_setKey_self]
        dsimp only [Json.asObj]
        obtain ⟨st5, hstep2, hok5⟩ := enrich_component_second oracle ⟨[]⟩ ⟨[]⟩ cf cf2 added st2
          (cacheOK_empty oracle) (cacheOK_empty oracle) hstep
        rw [hstep2]
        dsimp only
        have h1 : setKey (setKey mfs "component" (Json.obj cf2)) "component" (Json.obj cf2) =
            setKey mfs "component" (Json.obj cf2) := by
          apply setKey_id
          rw [lookup_setKey_self]
        have h2 : setKey (setKey fs "metadata" (Json.obj (setKey mfs "component" (Json.obj cf2))))
            "metadata" (Json.obj (setKey mfs "component" (Json.obj cf2))) =
            setKey fs "metadata" (Json.obj (setKey mfs "component" (Json.obj cf2))) := by
          apply setKey_id
          rw [lookup_setKey_self]
        rw [h1, h2]
        simp
      · subst hout
        unfold enrich_sbom
        dsimp only [Json.asObj]
        rw [hcl]
        dsimp only
        rw [enrich_metadata_none oracle fs ⟨[]⟩ 0 hmc]

/-- C9 witness: re-running enrichment on the enriched one-component SBOM
reproduces it with a zero updated-count. -/
theorem enrich_sbom_idempotent_witness :
    enrich_sbom oracleM sbomOneCompOut = .ok (sbomOneCompOut, 0) :=
  enrich_sbom_idempotent oracleM sbomOneComp sbomOneCompOut 1 rfl

/-- C10 witness: the `metaW` contact pairs with the chosen name, and
`metaN` (valid email, no name, no URLs) yields no supplier record. -/
theorem contact_implies_name_witness :
    (∃ nm em, suppField (some suppW) "name" = some (.str nm) ∧
      Json.arr [Json.obj [("name", Json.str "Alice"), ("email", Json.str "bob@x")]] =
        .arr [.obj [("name", .str nm), ("email", .str em)]]) ∧
    (none : Option Json) = none :=
  ⟨contact_implies_name.1 metaW (some suppW)
      (Json.arr [Json.obj [("name", Json.str "Alice"), ("email", Json.str "bob@x")]]) rfl rfl,
   contact_implies_name.2 metaN "" "" "a@b" "" [] none
      rfl rfl rfl rfl rfl rfl rfl rfl rfl rfl rfl⟩
